import Mathlib

/-!
Verification development for the depth-nerf training core.

The definitions below are shallow embeddings of the Python sources
`src/data/dataset.py` and `src/run-nerf.py`: floating-point scalars are
modelled by `ℚ`, numpy/torch arrays by lists or functions out of `Fin n`,
`np.inf` by `⊤ : WithTop β`, and the external collaborators (k-means
labelling, the Gaussian blur and resize kernels, the LPIPS network, the
renderer) by explicit parameters constrained only by the shape contracts
the surrounding code relies on.
-/

namespace DepthNerf

/-! ## View Selector (`SyntheticRealistic.__init__`, dataset.py lines 68-81)

The constructor clusters camera positions with k-means, computes every
point's distance to its own cluster centre, and then, for each cluster,
masks out-of-cluster entries to `np.inf` and takes `np.argmin`.  The
clustering itself (an external sklearn call) is abstracted by the label
assignment `labels`; the distance array is abstracted by `dists`, exactly
as the code materialises it before the selection loop. -/

/-- Masked distance array for cluster `i`: the value
`np.where(labels == i, dists, np.inf)` at position `j`
(dataset.py line 77). -/
def maskedDist {β : Type} [LinearOrder β] {n m : ℕ} (labels : Fin n → Fin m)
    (dists : Fin n → β) (i : Fin m) (j : Fin n) : WithTop β :=
  if labels j = i then (dists j : WithTop β) else ⊤

/-- Index of the first occurrence of the minimum of a list, with the
convention `np.argmin [] = 0`; this is the behaviour of `np.argmin`
(first index attaining the minimum). -/
def argminIdx {β : Type} [LinearOrder β] : List (WithTop β) → ℕ
  | [] => 0
  | a :: l => if ∀ b ∈ l, a ≤ b then 0 else argminIdx l + 1

/-- Representative index chosen for cluster `i`:
`np.argmin(np.where(labels == i, dists, np.inf))` (dataset.py line 78). -/
def selIdx {β : Type} [LinearOrder β] {n m : ℕ} (labels : Fin n → Fin m)
    (dists : Fin n → β) (i : Fin m) : ℕ :=
  argminIdx (List.ofFn fun j => maskedDist labels dists i j)

/-- The array `idxs` filled by the selection loop
(dataset.py lines 75-78): one representative per cluster. -/
def selectViews {β : Type} [LinearOrder β] (n m : ℕ) (labels : Fin n → Fin m)
    (dists : Fin n → β) : List ℕ :=
  List.ofFn fun i : Fin m => selIdx labels dists i

lemma argminIdx_le {β : Type} [LinearOrder β] :
    ∀ (l : List (WithTop β)) (b : WithTop β), b ∈ l → l.getD (argminIdx l) ⊤ ≤ b := by
  intro l
  induction l with
  | nil => intro b hb; cases hb
  | cons a t ih =>
    intro b hb
    by_cases h : ∀ c ∈ t, a ≤ c
    · rw [argminIdx, if_pos h, List.getD_cons_zero]
      rcases List.mem_cons.1 hb with rfl | hbt
      · exact le_refl _
      · exact h b hbt
    · rw [argminIdx, if_neg h, List.getD_cons_succ]
      push_neg at h
      obtain ⟨c, hc, hac⟩ := h
      rcases List.mem_cons.1 hb with rfl | hbt
      · exact le_trans (ih c hc) (le_of_lt hac)
      · exact ih b hbt

lemma getD_ofFn_lt {α : Type} {n : ℕ} (f : Fin n → α) (d : α) (i : ℕ) (h : i < n) :
    (List.ofFn f).getD i d = f ⟨i, h⟩ := by
  rw [List.getD_eq_getElem?_getD, List.getElem?_ofFn]
  simp [List.ofFnNthVal, h]

/-- C1: for every pose set whose k-means labelling leaves no cluster empty,
the View Selector returns exactly `m` indices, each a valid index into the
pose sequence, each belonging to its own cluster, each an
arg-min-distance member of that cluster (no other member of the same
cluster lies strictly closer to the centroid), and all returned indices
are pairwise distinct. -/
theorem viewSelector_argmin_per_cluster {β : Type} [LinearOrder β] (n m : ℕ)
    (labels : Fin n → Fin m) (dists : Fin n → β)
    (hne : ∀ i : Fin m, ∃ j : Fin n, labels j = i) :
    (selectViews n m labels dists).length = m ∧
    (∀ i : Fin m, ∃ h : selIdx labels dists i < n,
      labels ⟨selIdx labels dists i, h⟩ = i ∧
      ∀ j : Fin n, labels j = i → dists ⟨selIdx labels dists i, h⟩ ≤ dists j) ∧
    (∀ i i' : Fin m, selIdx labels dists i = selIdx labels dists i' → i = i') := by
  have key : ∀ i : Fin m, ∃ h : selIdx labels dists i < n,
      labels ⟨selIdx labels dists i, h⟩ = i ∧
      ∀ j : Fin n, labels j = i → dists ⟨selIdx labels dists i, h⟩ ≤ dists j := by
    intro i
    obtain ⟨j₀, hj₀⟩ := hne i
    set L := List.ofFn fun j => maskedDist labels dists i j with hL
    have hmem : maskedDist labels dists i j₀ ∈ L :=
      (List.mem_ofFn _ _).2 ⟨j₀, rfl⟩
    have hj₀v : maskedDist labels dists i j₀ = (dists j₀ : WithTop β) := by
      simp [maskedDist, hj₀]
    have hle := argminIdx_le L _ hmem
    rw [hj₀v] at hle
    have hnetop : L.getD (argminIdx L) ⊤ ≠ ⊤ := by
      intro htop
      rw [htop, top_le_iff] at hle
      exact WithTop.coe_ne_top hle
    have hlt : argminIdx L < n := by
      by_contra hge
      push_neg at hge
      have : L.length ≤ argminIdx L := by
        rw [hL, List.length_ofFn]; exact hge
      exact hnetop (List.getD_eq_default _ _ this)
    have hval : L.getD (argminIdx L) ⊤ = maskedDist labels dists i ⟨argminIdx L, hlt⟩ :=
      getD_ofFn_lt _ _ _ hlt
    have hlab : labels ⟨argminIdx L, hlt⟩ = i := by
      by_contra hno
      rw [hval] at hnetop
      exact hnetop (by simp [maskedDist, hno])
    refine ⟨hlt, hlab, ?_⟩
    intro j hj
    have hmemj : maskedDist labels dists i j ∈ L := (List.mem_ofFn _ _).2 ⟨j, rfl⟩
    have hlej := argminIdx_le L _ hmemj
    rw [hval] at hlej
    have hv1 : maskedDist labels dists i ⟨argminIdx L, hlt⟩
        = (dists ⟨argminIdx L, hlt⟩ : WithTop β) := by simp [maskedDist, hlab]
    have hv2 : maskedDist labels dists i j = (dists j : WithTop β) := by
      simp [maskedDist, hj]
    rw [hv1, hv2] at hlej
    exact WithTop.coe_le_coe.1 hlej
  refine ⟨by simp [selectViews], key, ?_⟩
  intro i i' heq
  obtain ⟨h1, hl1, _⟩ := key i
  obtain ⟨h2, hl2, _⟩ := key i'
  rw [← hl1, ← hl2]
  congr 1
  exact Fin.ext heq

/-- Witness for C1 at a concrete input: three camera positions, two
clusters (`labels = [0, 0, 1]`, distances `[2, 1, 5]`). -/
theorem viewSelector_argmin_per_cluster_witness :
    (selectViews 3 2 ![0, 0, 1] (![2, 1, 5] : Fin 3 → ℕ)).length = 2 ∧
    (∀ i : Fin 2, ∃ h : selIdx ![0, 0, 1] (![2, 1, 5] : Fin 3 → ℕ) i < 3,
      (![0, 0, 1] : Fin 3 → Fin 2) ⟨selIdx ![0, 0, 1] (![2, 1, 5] : Fin 3 → ℕ) i, h⟩ = i ∧
      ∀ j : Fin 3, (![0, 0, 1] : Fin 3 → Fin 2) j = i →
        (![2, 1, 5] : Fin 3 → ℕ) ⟨selIdx ![0, 0, 1] (![2, 1, 5] : Fin 3 → ℕ) i, h⟩
          ≤ (![2, 1, 5] : Fin 3 → ℕ) j) ∧
    (∀ i i' : Fin 2, selIdx ![0, 0, 1] (![2, 1, 5] : Fin 3 → ℕ) i
        = selIdx ![0, 0, 1] (![2, 1, 5] : Fin 3 → ℕ) i' → i = i') :=
  viewSelector_argmin_per_cluster 3 2 ![0, 0, 1] ![2, 1, 5] (by decide)

/-! ## Frequency-regularizer coefficient (`train`, run-nerf.py lines 272-286)

Inside the active window `k < Ts` with `Ts = int(args.reg_ratio * args.Td)`
the code computes
`a = args.ao + (1. - args.ao) * (k / Ts)` and
`alpha = (args.ao / (1. - args.ao)) * (1. - min(1., a))`. -/

/-- Coefficient `alpha` computed at iteration `k`
(run-nerf.py lines 284-285). -/
def freqCoeff (ao : ℚ) (Ts : ℕ) (k : ℕ) : ℚ :=
  (ao / (1 - ao)) * (1 - min 1 (ao + (1 - ao) * ((k : ℚ) / (Ts : ℚ))))

/-- C2: over the window `[0, Ts]` with floor `0 < ao < 1` the coefficient
equals the closed form of the spec, starts at its configured maximum
`ao` at `k = 0`, vanishes at `k = Ts`, and is monotonically
non-increasing in `k`. -/
theorem freqCoeff_spec (ao : ℚ) (Ts : ℕ) (h0 : 0 < ao) (h1 : ao < 1) (hTs : 0 < Ts) :
    (∀ k : ℕ, freqCoeff ao Ts k
        = (ao / (1 - ao)) * (1 - min 1 (ao + (1 - ao) * ((k : ℚ) / (Ts : ℚ))))) ∧
    freqCoeff ao Ts 0 = ao ∧
    (∀ k : ℕ, freqCoeff ao Ts k ≤ freqCoeff ao Ts 0) ∧
    freqCoeff ao Ts Ts = 0 ∧
    (∀ k k' : ℕ, k ≤ k' → freqCoeff ao Ts k' ≤ freqCoeff ao Ts k) := by
  have hpos : (0 : ℚ) < 1 - ao := sub_pos.2 h1
  have hne : (1 : ℚ) - ao ≠ 0 := ne_of_gt hpos
  have hT : (0 : ℚ) < (Ts : ℚ) := by exact_mod_cast hTs
  have hmax : freqCoeff ao Ts 0 = ao := by
    unfold freqCoeff
    rw [Nat.cast_zero, zero_div, mul_zero, add_zero, min_eq_right h1.le]
    exact div_mul_cancel₀ ao hne
  have hmono : ∀ k k' : ℕ, k ≤ k' → freqCoeff ao Ts k' ≤ freqCoeff ao Ts k := by
    intro k k' hkk
    have hc : 0 ≤ ao / (1 - ao) := div_nonneg h0.le hpos.le
    have hdiv : (k : ℚ) / (Ts : ℚ) ≤ (k' : ℚ) / (Ts : ℚ) := by
      apply div_le_div_of_nonneg_right ?_ hT.le
      exact_mod_cast hkk
    have ha : ao + (1 - ao) * ((k : ℚ) / (Ts : ℚ))
        ≤ ao + (1 - ao) * ((k' : ℚ) / (Ts : ℚ)) := by
      have := mul_le_mul_of_nonneg_left hdiv hpos.le
      linarith
    have hm : min 1 (ao + (1 - ao) * ((k : ℚ) / (Ts : ℚ)))
        ≤ min 1 (ao + (1 - ao) * ((k' : ℚ) / (Ts : ℚ))) := min_le_min le_rfl ha
    unfold freqCoeff
    apply mul_le_mul_of_nonneg_left ?_ hc
    linarith
  refine ⟨fun k => rfl, hmax, fun k => hmono 0 k (Nat.zero_le k), ?_, hmono⟩
  unfold freqCoeff
  rw [div_self (ne_of_gt hT), mul_one]
  have : ao + (1 - ao) = 1 := by ring
  rw [this, min_self, sub_self, mul_zero]

/-- Witness for C2 at `ao = 1/2`, `Ts = 4`. -/
theorem freqCoeff_spec_witness :
    (∀ k : ℕ, freqCoeff (1/2) 4 k
        = ((1/2 : ℚ) / (1 - 1/2)) * (1 - min 1 (1/2 + (1 - 1/2) * ((k : ℚ) / ((4 : ℕ) : ℚ))))) ∧
    freqCoeff (1/2) 4 0 = 1/2 ∧
    (∀ k : ℕ, freqCoeff (1/2) 4 k ≤ freqCoeff (1/2) 4 0) ∧
    freqCoeff (1/2) 4 4 = 0 ∧
    (∀ k k' : ℕ, k ≤ k' → freqCoeff (1/2) 4 k' ≤ freqCoeff (1/2) 4 k) :=
  freqCoeff_spec (1/2) 4 (by norm_num) (by norm_num) (by norm_num)

/-! ## Chunked perceptual-distance computation (`validation`, run-nerf.py lines 155-168)

`lpips_net(rgbs, rgbs_gt)` yields one perceptual-distance value per
held-out image; the validator either averages them in one pass
(`val_size < 25`) or slices the arrays at the Python indices
`range(0, val_size, chunk_size)` with `chunk_size = val_size // 5`,
averages each slice, sums the per-slice means and divides the sum by
`n_chunks = 5`.  The per-image values are the abstract input `vals`. -/

/-- Arithmetic mean of a list of values (`Tensor.mean()`); the empty list
maps to `0` (division by zero in `ℚ`). -/
def listMean (l : List ℚ) : ℚ := l.sum / (l.length : ℚ)

/-- The Python expression `range(0, stop, step)` for `step > 0`:
all multiples of `step` below `stop`, in increasing order. -/
def pyRange (stop step : ℕ) : List ℕ :=
  (List.range ((stop + step - 1) / step)).map (· * step)

/-- Validator perceptual-distance aggregation
(run-nerf.py lines 156-168) as a function of the per-image values:
`chunk_size = val_size // 5`, `chunk_idxs = range(0, val_size, chunk_size)`,
slices `vals[i : i + chunk_size]`, and the sum of per-chunk means divided
by `n_chunks = 5`. -/
def lpipsChunked (vals : List ℚ) : ℚ :=
  if vals.length < 25 then listMean vals
  else
    (((pyRange vals.length (vals.length / 5)).map
        fun i => (vals.drop i).take (vals.length / 5)).map listMean).sum / 5

/-- Concrete held-out set of size 27 (not divisible by 5): 25 zero values
followed by two ones. -/
def lpipsVals27 : List ℚ := List.replicate 25 0 ++ [1, 1]

/-- Counterexample to C3 as stated: on a held-out set of size 27 the
chunked computation slices the array at `range(0, 27, 5)`, producing six
chunks whose means sum to 1, and divides by 5, yielding `1/5`, while the
one-pass mean is `2/27`. -/
theorem lpipsChunked_ne_mean_at_27 :
    lpipsChunked lpipsVals27 = 1/5 ∧ listMean lpipsVals27 = 2/27 ∧
    lpipsChunked lpipsVals27 ≠ listMean lpipsVals27 := by
  have h1 : lpipsChunked lpipsVals27 = 1/5 := by
    norm_num [lpipsChunked, lpipsVals27, listMean, pyRange, List.range_succ, List.replicate]
  have h2 : listMean lpipsVals27 = 2/27 := by
    norm_num [lpipsVals27, listMean, List.replicate]
  refine ⟨h1, h2, ?_⟩
  rw [h1, h2]
  norm_num

lemma take_length_of_le {α : Type} (l : List α) (n : ℕ) (h : n ≤ l.length) :
    (l.take n).length = n := by
  rw [List.length_take]
  exact Nat.min_eq_left h

/-- C3 amended: when the held-out set size is at least 25 and divisible by
the chunk count 5, the chunked perceptual-distance computation equals the
one-pass mean over the whole set. -/
theorem lpipsChunked_eq_mean_of_dvd (vals : List ℚ)
    (h25 : 25 ≤ vals.length) (hdvd : 5 ∣ vals.length) :
    lpipsChunked vals = listMean vals := by
  obtain ⟨cs, hlen⟩ := hdvd
  have hcs1 : 1 ≤ cs := by omega
  have hdiv5 : vals.length / 5 = cs := by omega
  have hidx : pyRange vals.length cs = [0, cs, 2 * cs, 3 * cs, 4 * cs] := by
    unfold pyRange
    have hdiv : (vals.length + cs - 1) / cs = 5 :=
      Nat.div_eq_of_lt_le (by omega) (by omega)
    rw [hdiv]
    have h5 : List.range 5 = [0, 1, 2, 3, 4] := rfl
    rw [h5]
    simp
  have hnot : ¬ vals.length < 25 := by omega
  rw [lpipsChunked, if_neg hnot, hdiv5, hidx]
  have hdd : ∀ a b : ℕ, (vals.drop a).drop b = vals.drop (a + b) := by
    intro a b; exact List.drop_drop b a vals
  -- sums of the five chunks
  have hs0 := List.sum_take_add_sum_drop vals cs
  have hs1 := List.sum_take_add_sum_drop (vals.drop cs) cs
  have hs2 := List.sum_take_add_sum_drop (vals.drop (2 * cs)) cs
  have hs3 := List.sum_take_add_sum_drop (vals.drop (3 * cs)) cs
  have hs4 := List.sum_take_add_sum_drop (vals.drop (4 * cs)) cs
  have hdrop2 : (vals.drop cs).drop cs = vals.drop (2 * cs) := by
    rw [hdd]; congr 1; omega
  have hdrop3 : (vals.drop (2 * cs)).drop cs = vals.drop (3 * cs) := by
    rw [hdd]; congr 1; omega
  have hdrop4 : (vals.drop (3 * cs)).drop cs = vals.drop (4 * cs) := by
    rw [hdd]; congr 1; omega
  have hdrop5 : (vals.drop (4 * cs)).drop cs = [] := by
    rw [hdd]
    apply List.drop_eq_nil_of_le
    omega
  rw [hdrop2] at hs1
  rw [hdrop3] at hs2
  rw [hdrop4] at hs3
  rw [hdrop5] at hs4
  simp only [List.sum_nil] at hs4
  -- lengths of the five chunks
  have hlend : ∀ a : ℕ, (vals.drop a).length = vals.length - a := fun a =>
    List.length_drop a vals
  have hl0 : ((vals.take cs)).length = cs :=
    take_length_of_le vals cs (by omega)
  have hl1 : ((vals.drop cs).take cs).length = cs :=
    take_length_of_le _ cs (by rw [hlend]; omega)
  have hl2 : ((vals.drop (2 * cs)).take cs).length = cs :=
    take_length_of_le _ cs (by rw [hlend]; omega)
  have hl3 : ((vals.drop (3 * cs)).take cs).length = cs :=
    take_length_of_le _ cs (by rw [hlend]; omega)
  have hl4 : ((vals.drop (4 * cs)).take cs).length = cs :=
    take_length_of_le _ cs (by rw [hlend]; omega)
  have hcsq : ((cs : ℚ)) ≠ 0 := by
    exact_mod_cast Nat.one_le_iff_ne_zero.1 hcs1
  have hlq : ((vals.length : ℚ)) = 5 * (cs : ℚ) := by exact_mod_cast hlen
  simp only [List.map_cons, List.map_nil, List.sum_cons, List.sum_nil, List.drop_zero,
    listMean, hl0, hl1, hl2, hl3, hl4, hlq]
  have hsum : (List.take cs vals).sum + (List.take cs (List.drop cs vals)).sum
      + (List.take cs (List.drop (2 * cs) vals)).sum
      + (List.take cs (List.drop (3 * cs) vals)).sum
      + (List.take cs (List.drop (4 * cs) vals)).sum = vals.sum := by
    linarith [hs0, hs1, hs2, hs3, hs4]
  rw [div_eq_div_iff (by norm_num) (by positivity)]
  field_simp
  linear_combination (5 * (cs : ℚ)) * hsum

/-- Witness for the amended C3 on a divisible held-out set of size 25. -/
theorem lpipsChunked_eq_mean_witness :
    25 ≤ (List.replicate 25 (1 : ℚ)).length ∧ 5 ∣ (List.replicate 25 (1 : ℚ)).length ∧
    lpipsChunked (List.replicate 25 (1 : ℚ)) = listMean (List.replicate 25 (1 : ℚ)) :=
  ⟨by decide, by decide,
    lpipsChunked_eq_mean_of_dvd (List.replicate 25 1) (by decide) (by decide)⟩

/-! ## Ray Builder and RayDataset (`SyntheticRealistic`, dataset.py)

Pixels and 3-vectors are rational triples; an image is a list of `H` rows
of `W` pixels; a pose keeps its rotation rows and translation column. -/

abbrev Vec3 := ℚ × ℚ × ℚ

abbrev Image := List (List Vec3)

structure Pose where
  r0 : Vec3
  r1 : Vec3
  r2 : Vec3
  trans : Vec3

def pose0 : Pose := ⟨(0, 0, 0), (0, 0, 0), (0, 0, 0), (0, 0, 0)⟩

def dot3 (a b : Vec3) : ℚ := a.1 * b.1 + a.2.1 * b.2.1 + a.2.2 * b.2.2

/-- Application of the rotation part of a camera-to-world pose. -/
def rotApply (p : Pose) (v : Vec3) : Vec3 := (dot3 p.r0 v, dot3 p.r1 v, dot3 p.r2 v)

structure HWF where
  H : ℕ
  W : ℕ
  f : ℚ

/-- Camera-space pinhole direction of pixel `(i, j)` with the principal
point at the image centre. -/
def pinholeDir (H W : ℕ) (f : ℚ) (i j : ℕ) : Vec3 :=
  (((j : ℚ) - (W : ℚ) / 2) / f, -(((i : ℚ) - (H : ℚ) / 2) / f), -1)

/-- Modelled from the spec: the function `get_rays` of `utils.utilities`
is imported by `dataset.py` but its source file is not part of the
repository snapshot.  The spec (§4.2, Ray Builder) describes it: pixel
`(i, j)` maps to a camera-space direction using the focal length with the
principal point at the image centre, transformed into world space by the
view's rotation, while the ray origin is the pose's translation column,
identical for every pixel of that view; the outputs are per-pixel
`[H, W, 3]` grids of origins and directions. -/
def get_rays (H W : ℕ) (f : ℚ) (p : Pose) : List (List Vec3) × List (List Vec3) :=
  ((List.range H).map fun _ => (List.range W).map fun _ => p.trans,
   (List.range H).map fun i => (List.range W).map fun j =>
     rotApply p (pinholeDir H W f i j))

/-- One view's `[H, W, 6]` grid `torch.cat(U.get_rays(H, W, f, p), -1)`
(dataset.py line 134), with the six channels kept as an
(origin, direction) pair. -/
def viewRayGrid (H W : ℕ) (f : ℚ) (p : Pose) : List (List (Vec3 × Vec3)) :=
  List.zipWith (fun ro rd => List.zipWith Prod.mk ro rd)
    (get_rays H W f p).1 (get_rays H W f p).2

/-- The `[N*H*W, 6]` ray table
`torch.stack([...], 0).reshape(-1, 6)` (dataset.py lines 134-136). -/
def buildRays (H W : ℕ) (f : ℚ) (poses : List Pose) : List (Vec3 × Vec3) :=
  (poses.map fun p => (viewRayGrid H W f p).flatten).flatten

structure Built where
  raysO : List Vec3
  raysD : List Vec3
  rgb : List Vec3

/-- `SyntheticRealistic.__build_data` (dataset.py lines 117-139): ray
origins, ray directions and flattened target colors. -/
def buildData (imgs : List Image) (poses : List Pose) (hwf : HWF) : Built :=
  { raysO := (buildRays hwf.H hwf.W hwf.f poses).map Prod.fst
    raysD := (buildRays hwf.H hwf.W hwf.f poses).map Prod.snd
    rgb := (imgs.map List.flatten).flatten }

structure SynthDataset where
  imgMode : Bool
  imgs : List Image
  poses : List Pose
  hwf : HWF
  raysO : List Vec3
  raysD : List Vec3
  rgb : List Vec3

/-- Tail of `SyntheticRealistic.__init__` (dataset.py lines 80-86): store
the selected images and poses and, in ray mode only, split them into
per-ray samples via `__build_data`. -/
def mkDataset (imgMode : Bool) (imgs : List Image) (poses : List Pose)
    (hwf : HWF) : SynthDataset :=
  if imgMode then ⟨true, imgs, poses, hwf, [], [], []⟩
  else
    let b := buildData imgs poses hwf
    ⟨false, imgs, poses, hwf, b.raysO, b.raysD, b.rgb⟩

/-- `SyntheticRealistic.__len__` (dataset.py lines 89-100). -/
def datasetLen (ds : SynthDataset) : ℕ :=
  if ds.imgMode then ds.imgs.length else ds.rgb.length

/-- `SyntheticRealistic.__downsample` (dataset.py lines 141-166); the
torchvision `Resize` kernel is the abstract parameter `resize`. -/
def downsampleStep (resize : ℕ → ℕ → List Image → List Image)
    (imgs : List Image) (hwf : HWF) (factor : ℕ) : List Image × HWF :=
  (resize (hwf.H / factor) (hwf.W / factor) imgs,
   ⟨hwf.H / factor, hwf.W / factor, hwf.f / (factor : ℚ)⟩)

/-- `SyntheticRealistic.gaussian_downsample` (dataset.py lines 214-242):
for `t > 0` blur the stored images (the torchvision Gaussian kernel is
the abstract parameter `blur`), downsample with factor 1, rebuild the ray
table from the filtered images, and return the filtered images and
intrinsics; for `t == 0` return the stored images and intrinsics with no
mutation.  The first component is the post-call dataset state. -/
def gaussianDownsample (blur : ℕ → List Image → List Image)
    (resize : ℕ → ℕ → List Image → List Image)
    (ds : SynthDataset) (t : ℕ) : SynthDataset × (List Image × HWF) :=
  if 0 < t then
    let imgsB := blur t ds.imgs
    let res := downsampleStep resize imgsB ds.hwf 1
    let b := buildData res.1 ds.poses res.2
    ({ ds with raysO := b.raysO, raysD := b.raysD, rgb := b.rgb },
     (res.1, res.2))
  else (ds, (ds.imgs, ds.hwf))

/-- All images in the list are `H × W` pixel grids. -/
def ImgShape (H W : ℕ) (imgs : List Image) : Prop :=
  ∀ img ∈ imgs, img.length = H ∧ ∀ row ∈ img, row.length = W

lemma flatten_length_uniform {α : Type} (m : ℕ) (L : List (List α))
    (h : ∀ l ∈ L, l.length = m) : L.flatten.length = L.length * m := by
  induction L with
  | nil => simp
  | cons l rest ih =>
    have hl : l.length = m := h l (List.mem_cons_self l rest)
    have hrest : ∀ x ∈ rest, x.length = m := fun x hx => h x (List.mem_cons_of_mem l hx)
    simp only [List.flatten_cons, List.length_append, hl, ih hrest, List.length_cons]
    ring

lemma image_flatten_length (H W : ℕ) (img : Image) (h1 : img.length = H)
    (h2 : ∀ row ∈ img, row.length = W) : img.flatten.length = H * W := by
  rw [flatten_length_uniform W img h2, h1]

/-- C9: calling the resampling transform with `t = 0` is a no-op: the
returned pair is the unmodified dataset state together with the stored
images and intrinsics; no field changes and the ray table is not rebuilt. -/
theorem gaussianDownsample_zero_noop (blur : ℕ → List Image → List Image)
    (resize : ℕ → ℕ → List Image → List Image) (ds : SynthDataset) :
    gaussianDownsample blur resize ds 0 = (ds, (ds.imgs, ds.hwf)) := rfl

lemma buildData_rgb_length (imgs : List Image) (poses : List Pose) (hwf : HWF)
    (H W : ℕ) (hshape : ImgShape H W imgs) :
    (buildData imgs poses hwf).rgb.length = imgs.length * (H * W) := by
  unfold buildData
  rw [flatten_length_uniform (H * W), List.length_map]
  intro l hl
  obtain ⟨img, himg, rfl⟩ := List.mem_map.1 hl
  exact image_flatten_length H W img (hshape img himg).1 (hshape img himg).2

/-- C6: for a dataset over `n` selected `H × W` views the length is
`n * H * W` in ray mode and `n` in image mode, both immediately after
construction and after a rebuild of the ray table by the resampling
transform (whose blur and resize collaborators preserve image count and
produce images of the requested size). -/
theorem rayDataset_size_invariant (imgs : List Image) (poses : List Pose)
    (H W : ℕ) (f : ℚ) (n : ℕ)
    (blur : ℕ → List Image → List Image)
    (resize : ℕ → ℕ → List Image → List Image) (t : ℕ)
    (hshape : ImgShape H W imgs) (hn : imgs.length = n)
    (hblur : ∀ u l, (blur u l).length = l.length)
    (hresize : ∀ h w l, (resize h w l).length = l.length ∧ ImgShape h w (resize h w l)) :
    datasetLen (mkDataset true imgs poses ⟨H, W, f⟩) = n ∧
    datasetLen (mkDataset false imgs poses ⟨H, W, f⟩) = n * (H * W) ∧
    datasetLen (gaussianDownsample blur resize (mkDataset false imgs poses ⟨H, W, f⟩) t).1
      = n * (H * W) ∧
    datasetLen (gaussianDownsample blur resize (mkDataset true imgs poses ⟨H, W, f⟩) t).1
      = n := by
  have himg : datasetLen (mkDataset true imgs poses ⟨H, W, f⟩) = n := by
    simp [mkDataset, datasetLen, hn]
  have hray : datasetLen (mkDataset false imgs poses ⟨H, W, f⟩) = n * (H * W) := by
    simp only [mkDataset, if_neg Bool.false_ne_true, datasetLen]
    rw [buildData_rgb_length imgs poses _ H W hshape, hn]
  rcases Nat.eq_zero_or_pos t with rfl | ht
  · refine ⟨himg, hray, ?_, ?_⟩
    · simpa [gaussianDownsample] using hray
    · simpa [gaussianDownsample] using himg
  · have hrebuild : ∀ ds : SynthDataset, ds.hwf = ⟨H, W, f⟩ → ds.imgs.length = n →
        ((gaussianDownsample blur resize ds t).1).rgb.length = n * (H * W) := by
      intro ds hhwf hdsn
      simp only [gaussianDownsample, if_pos ht, downsampleStep, hhwf]
      rw [buildData_rgb_length _ ds.poses _ (H / 1) (W / 1)
        (hresize (H / 1) (W / 1) (blur t ds.imgs)).2]
      rw [(hresize (H / 1) (W / 1) (blur t ds.imgs)).1, hblur, hdsn]
      simp
    refine ⟨himg, hray, ?_, ?_⟩
    · have h1 : (mkDataset false imgs poses ⟨H, W, f⟩).hwf = ⟨H, W, f⟩ := by
        simp [mkDataset]
      have h2 : (mkDataset false imgs poses ⟨H, W, f⟩).imgs.length = n := by
        simp [mkDataset, hn]
      have h3 : ((gaussianDownsample blur resize
          (mkDataset false imgs poses ⟨H, W, f⟩) t).1).imgMode = false := by
        simp [gaussianDownsample, if_pos ht, mkDataset]
      rw [datasetLen, if_neg (by rw [h3]; simp)]
      exact hrebuild _ h1 h2
    · have h3 : ((gaussianDownsample blur resize
          (mkDataset true imgs poses ⟨H, W, f⟩) t).1).imgMode = true := by
        simp [gaussianDownsample, if_pos ht, mkDataset]
      have h4 : ((gaussianDownsample blur resize
          (mkDataset true imgs poses ⟨H, W, f⟩) t).1).imgs = imgs := by
        simp [gaussianDownsample, if_pos ht, mkDataset]
      rw [datasetLen, if_pos (by rw [h3]), h4, hn]

/-- Witness for C6: one 1x1 view, identity-free pose, blur = identity,
resize = constant-shape resampler, `t = 1`. -/
theorem rayDataset_size_invariant_witness :
    datasetLen (mkDataset true [[[(0, 0, 0)]]] [pose0] ⟨1, 1, 1⟩) = 1 ∧
    datasetLen (mkDataset false [[[(0, 0, 0)]]] [pose0] ⟨1, 1, 1⟩) = 1 * (1 * 1) ∧
    datasetLen (gaussianDownsample (fun _ l => l)
      (fun h w l => l.map fun _ => List.replicate h (List.replicate w (0, 0, 0)))
      (mkDataset false [[[(0, 0, 0)]]] [pose0] ⟨1, 1, 1⟩) 1).1 = 1 * (1 * 1) ∧
    datasetLen (gaussianDownsample (fun _ l => l)
      (fun h w l => l.map fun _ => List.replicate h (List.replicate w (0, 0, 0)))
      (mkDataset true [[[(0, 0, 0)]]] [pose0] ⟨1, 1, 1⟩) 1).1 = 1 :=
  rayDataset_size_invariant [[[(0, 0, 0)]]] [pose0] 1 1 1 1 (fun _ l => l)
    (fun h w l => l.map fun _ => List.replicate h (List.replicate w (0, 0, 0))) 1
    (by intro img him; fin_cases him; simp) rfl (fun _ _ => rfl)
    (by
      intro h w l
      refine ⟨List.length_map l _, ?_⟩
      intro img him
      obtain ⟨x, _, rfl⟩ := List.mem_map.1 him
      refine ⟨List.length_replicate h _, ?_⟩
      intro row hrow
      rw [List.eq_of_mem_replicate hrow]
      exact List.length_replicate w _)

lemma zipWith_map_same {α β γ δ : Type} (f : β → γ → δ) (g : α → β) (h : α → γ) :
    ∀ l : List α, List.zipWith f (l.map g) (l.map h) = l.map fun x => f (g x) (h x)
  | [] => rfl
  | a :: l => by
    simp only [List.map_cons, List.zipWith_cons_cons, zipWith_map_same f g h l]

lemma viewRayGrid_eq_map (H W : ℕ) (f : ℚ) (p : Pose) :
    viewRayGrid H W f p = (List.range H).map fun i => (List.range W).map fun j =>
      (p.trans, rotApply p (pinholeDir H W f i j)) := by
  unfold viewRayGrid get_rays
  rw [zipWith_map_same]
  apply List.map_congr_left
  intro i _
  rw [zipWith_map_same]

lemma getD_map_lt {α β : Type} (f : α → β) (l : List α) (d : β) (d' : α) (i : ℕ)
    (h : i < l.length) : (l.map f).getD i d = f (l.getD i d') := by
  have h2 : l.getD i d' = l[i] := by
    rw [List.getD_eq_getElem?_getD, List.getElem?_eq_getElem h]
    rfl
  rw [h2, List.getD_eq_getElem?_getD, List.getElem?_map, List.getElem?_eq_getElem h]
  rfl

lemma getD_range (n i d : ℕ) (h : i < n) : (List.range n).getD i d = i := by
  rw [List.getD_eq_getElem?_getD, List.getElem?_range h]
  rfl

lemma flatten_getD_uniform {α : Type} (d : α) (m : ℕ) :
    ∀ (L : List (List α)) (v q : ℕ), (∀ l ∈ L, l.length = m) → v < L.length → q < m →
      L.flatten.getD (v * m + q) d = (L.getD v []).getD q d := by
  intro L
  induction L with
  | nil =>
    intro v q _ hv _
    exact absurd hv (Nat.not_lt_zero v)
  | cons l rest ih =>
    intro v q hlen hv hq
    have hl : l.length = m := hlen l (List.mem_cons_self l rest)
    have hrest : ∀ x ∈ rest, x.length = m := fun x hx => hlen x (List.mem_cons_of_mem l hx)
    cases v with
    | zero =>
      rw [List.flatten_cons, Nat.zero_mul, Nat.zero_add, List.getD_cons_zero,
        List.getD_append _ _ _ _ (by rw [hl]; exact hq)]
    | succ v' =>
      rw [List.flatten_cons, List.getD_append_right _ _ _ _ (by
        rw [hl, Nat.succ_mul]
        omega)]
      rw [List.getD_cons_succ]
      have harith : v' * m + m + q - l.length = v' * m + q := by
        rw [hl]; omega
      rw [Nat.succ_mul, harith]
      exact ih v' q hrest (Nat.lt_of_succ_lt_succ hv) hq

lemma pix_lt (i j H W : ℕ) (hi : i < H) (hj : j < W) : i * W + j < H * W :=
  calc i * W + j < i * W + W := Nat.add_lt_add_left hj _
    _ = (i + 1) * W := by ring
    _ ≤ H * W := Nat.mul_le_mul_right W hi

lemma viewFlat_length (H W : ℕ) (f : ℚ) (p : Pose) :
    ((viewRayGrid H W f p).flatten).length = H * W := by
  rw [viewRayGrid_eq_map, flatten_length_uniform W]
  · simp
  · intro l hl
    obtain ⟨i, _, rfl⟩ := List.mem_map.1 hl
    simp

lemma viewFlat_getD (H W : ℕ) (f : ℚ) (p : Pose) (i j : ℕ) (hi : i < H) (hj : j < W) :
    (viewRayGrid H W f p).flatten.getD (i * W + j) ((0, 0, 0), (0, 0, 0))
      = (p.trans, rotApply p (pinholeDir H W f i j)) := by
  rw [viewRayGrid_eq_map]
  rw [flatten_getD_uniform _ W _ i j ?rows (by simpa using hi) hj]
  case rows =>
    intro l hl
    obtain ⟨x, _, rfl⟩ := List.mem_map.1 hl
    simp
  rw [getD_map_lt _ _ _ 0 i (by simpa using hi), getD_range _ _ _ hi,
    getD_map_lt _ _ _ 0 j (by simpa using hj), getD_range _ _ _ hj]

lemma buildRays_length (H W : ℕ) (f : ℚ) (poses : List Pose) :
    (buildRays H W f poses).length = poses.length * (H * W) := by
  unfold buildRays
  rw [flatten_length_uniform (H * W), List.length_map]
  intro l hl
  obtain ⟨p, _, rfl⟩ := List.mem_map.1 hl
  exact viewFlat_length H W f p

lemma buildRays_getD (H W : ℕ) (f : ℚ) (poses : List Pose) (v i j : ℕ)
    (hv : v < poses.length) (hi : i < H) (hj : j < W) :
    (buildRays H W f poses).getD (v * (H * W) + (i * W + j)) ((0, 0, 0), (0, 0, 0))
      = ((poses.getD v pose0).trans,
         rotApply (poses.getD v pose0) (pinholeDir H W f i j)) := by
  unfold buildRays
  rw [flatten_getD_uniform _ (H * W) _ v (i * W + j) ?rows (by simpa using hv)
    (pix_lt i j H W hi hj)]
  case rows =>
    intro l hl
    obtain ⟨p, _, rfl⟩ := List.mem_map.1 hl
    exact viewFlat_length H W f p
  rw [getD_map_lt _ _ _ pose0 v hv]
  exact viewFlat_getD H W f _ i j hi hj

/-- C7 (spec-modelled for `get_rays`): in the ray table built by
`__build_data`, the origin, direction and target color at row
`r = v*(H*W) + i*W + j` all refer to view `v` and pixel `(i, j)`: per-view
arrays are concatenated in view order and flattened in pixel order for
origins, directions and colors alike. -/
theorem rayTable_row_alignment (imgs : List Image) (poses : List Pose)
    (H W : ℕ) (f : ℚ) (hshape : ImgShape H W imgs)
    (hlen : imgs.length = poses.length)
    (v i j : ℕ) (hv : v < poses.length) (hi : i < H) (hj : j < W) :
    (buildData imgs poses ⟨H, W, f⟩).raysO.getD (v * (H * W) + (i * W + j)) (0, 0, 0)
      = (poses.getD v pose0).trans ∧
    (buildData imgs poses ⟨H, W, f⟩).raysD.getD (v * (H * W) + (i * W + j)) (0, 0, 0)
      = rotApply (poses.getD v pose0) (pinholeDir H W f i j) ∧
    (buildData imgs poses ⟨H, W, f⟩).rgb.getD (v * (H * W) + (i * W + j)) (0, 0, 0)
      = ((imgs.getD v []).getD i []).getD j (0, 0, 0) := by
  have hr : v * (H * W) + (i * W + j) < (buildRays H W f poses).length := by
    rw [buildRays_length]
    calc v * (H * W) + (i * W + j) < v * (H * W) + H * W :=
          Nat.add_lt_add_left (pix_lt i j H W hi hj) _
      _ = (v + 1) * (H * W) := by ring
      _ ≤ poses.length * (H * W) := Nat.mul_le_mul_right (H * W) hv
  have hrays := buildRays_getD H W f poses v i j hv hi hj
  refine ⟨?_, ?_, ?_⟩
  · show ((buildRays H W f poses).map Prod.fst).getD _ _ = _
    rw [getD_map_lt _ _ _ ((0, 0, 0), (0, 0, 0)) _ hr, hrays]
  · show ((buildRays H W f poses).map Prod.snd).getD _ _ = _
    rw [getD_map_lt _ _ _ ((0, 0, 0), (0, 0, 0)) _ hr, hrays]
  · show ((imgs.map List.flatten).flatten).getD _ _ = _
    have hvimg : v < imgs.length := by rw [hlen]; exact hv
    have himg : (imgs.getD v []).length = H ∧ ∀ row ∈ imgs.getD v [], row.length = W := by
      have hmem : imgs.getD v [] ∈ imgs := by
        have : imgs.getD v [] = imgs[v] := by
          rw [List.getD_eq_getElem?_getD, List.getElem?_eq_getElem hvimg]
          rfl
        rw [this]
        exact List.getElem_mem hvimg
      exact hshape _ hmem
    rw [flatten_getD_uniform _ (H * W) _ v (i * W + j) ?rows (by simpa using hvimg)
      (pix_lt i j H W hi hj)]
    case rows =>
      intro l hl
      obtain ⟨img, hmem, rfl⟩ := List.mem_map.1 hl
      exact image_flatten_length H W img (hshape img hmem).1 (hshape img hmem).2
    rw [getD_map_lt _ _ _ [] v hvimg]
    rw [flatten_getD_uniform _ W _ i j himg.2 (by rw [himg.1]; exact hi) hj]

/-- Witness for C7: one 1x1 view. -/
theorem rayTable_row_alignment_witness :
    (buildData [[[(1, 0, 0)]]] [pose0] ⟨1, 1, 1⟩).raysO.getD 0 (0, 0, 0)
      = (([pose0].getD 0 pose0).trans) ∧
    (buildData [[[(1, 0, 0)]]] [pose0] ⟨1, 1, 1⟩).raysD.getD 0 (0, 0, 0)
      = rotApply ([pose0].getD 0 pose0) (pinholeDir 1 1 1 0 0) ∧
    (buildData [[[(1, 0, 0)]]] [pose0] ⟨1, 1, 1⟩).rgb.getD 0 (0, 0, 0)
      = ((([[[(1, 0, 0)]]] : List Image).getD 0 []).getD 0 []).getD 0 (0, 0, 0) :=
  rayTable_row_alignment [[[(1, 0, 0)]]] [pose0] 1 1 1
    (by intro img him; fin_cases him; simp) rfl 0 0 0
    (by decide) (by decide) (by decide)

/-! ## Training loop body and non-finite loss (run-nerf.py lines 237-304)

The loop body computes the photometric loss, backpropagates it and steps
the optimizer with no finiteness test anywhere between the loss
computation (line 261) and the optimizer step (line 290). -/

/-- Python float as seen by the loss computation: a finite rational or a
non-finite value (nan/inf). -/
inductive PyFloat
  | fin (q : ℚ)
  | nonfinite
deriving DecidableEq

def PyFloat.isFinite : PyFloat → Bool
  | fin _ => true
  | nonfinite => false

structure TrainState where
  iter : ℕ
  optSteps : ℕ
  lastLoss : PyFloat
deriving DecidableEq

/-- One iteration of the training loop body (run-nerf.py lines 238-304):
the loss of iteration `k` is computed (line 261) and then unconditionally
backpropagated and applied (`loss.backward()`, `optimizer.step()`, lines
289-290); control then flows to the next iteration.  The body contains no
branch on the finiteness of the loss. -/
def trainIter (lossOf : ℕ → PyFloat) (k : ℕ) (s : TrainState) : TrainState :=
  { iter := k + 1, optSteps := s.optSteps + 1, lastLoss := lossOf k }

/-- The loop `for k in pbar` over `range(n)` (run-nerf.py line 237). -/
def trainRun (lossOf : ℕ → PyFloat) : ℕ → TrainState
  | 0 => ⟨0, 0, PyFloat.fin 0⟩
  | n + 1 => trainIter lossOf n (trainRun lossOf n)

/-- C4 evidence at the failing input: with a loss that is non-finite from
iteration 0 on, the loop neither raises nor stops: after two iterations
the optimizer has been stepped twice and the non-finite loss has been
silently carried into iteration 1, contradicting the claimed
propagate-and-take-no-further-steps behaviour. -/
theorem nonfinite_loss_not_propagated :
    PyFloat.nonfinite.isFinite = false ∧
    ((fun _ => PyFloat.nonfinite) 0).isFinite = false ∧
    trainRun (fun _ => PyFloat.nonfinite) 2 = ⟨2, 2, PyFloat.nonfinite⟩ ∧
    (trainRun (fun _ => PyFloat.nonfinite) 2).optSteps = 2 :=
  ⟨rfl, rfl, rfl, rfl⟩

/-! ## Batch source with epoch wraparound (run-nerf.py lines 231, 240-245)

`iterator = iter(train_loader)` walks one shuffled epoch; `next(iterator)`
inside `try` is retried on `StopIteration` after rebuilding the iterator
from the next shuffle.  `perm e` is the order produced by the `e`-th
shuffle; drawing returns `none` exactly when an uncaught `StopIteration`
escapes (only possible on an empty dataset). -/

structure LoaderState (n : ℕ) where
  epoch : ℕ
  rest : List (Fin n)
deriving DecidableEq

/-- `next(iterator)` with the handler of run-nerf.py lines 241-245. -/
def draw {n : ℕ} (perm : ℕ → List (Fin n)) :
    LoaderState n → Option (Fin n × LoaderState n)
  | ⟨e, []⟩ =>
    match perm (e + 1) with
    | [] => none
    | x :: xs => some (x, ⟨e + 1, xs⟩)
  | ⟨e, x :: xs⟩ => some (x, ⟨e, xs⟩)

/-- Draw `m` consecutive batches of size 1, collecting the samples. -/
def drawMany {n : ℕ} (perm : ℕ → List (Fin n)) :
    ℕ → LoaderState n → Option (List (Fin n) × LoaderState n)
  | 0, s => some ([], s)
  | m + 1, s =>
    (draw perm s).bind fun p =>
      (drawMany perm m p.2).bind fun q => some (p.1 :: q.1, q.2)

lemma drawMany_rest {n : ℕ} (perm : ℕ → List (Fin n)) :
    ∀ (rest : List (Fin n)) (e : ℕ),
      drawMany perm rest.length ⟨e, rest⟩ = some (rest, ⟨e, []⟩) := by
  intro rest
  induction rest with
  | nil => intro e; rfl
  | cons x xs ih =>
    intro e
    simp only [List.length_cons, drawMany, draw, Option.some_bind, ih e]

lemma drawMany_prefix {n : ℕ} (perm : ℕ → List (Fin n)) :
    ∀ (rest : List (Fin n)) (e m : ℕ),
      drawMany perm (rest.length + m) ⟨e, rest⟩
        = (drawMany perm m ⟨e, []⟩).map fun p => (rest ++ p.1, p.2) := by
  intro rest
  induction rest with
  | nil =>
    intro e m
    simp only [List.length_nil, Nat.zero_add, List.nil_append]
    cases h : drawMany perm m ⟨e, []⟩ with
    | none => rfl
    | some p => rfl
  | cons x xs ih =>
    intro e m
    have harith : (x :: xs).length + m = (xs.length + m) + 1 := by
      simp [List.length_cons]
      omega
    rw [harith]
    simp only [drawMany, draw, Option.some_bind]
    rw [ih e m]
    cases h : drawMany perm m (⟨e, []⟩ : LoaderState n) with
    | none => rfl
    | some p => simp

lemma drawMany_isSome {n : ℕ} (perm : ℕ → List (Fin n))
    (hperm : ∀ e, perm e ≠ []) :
    ∀ (m : ℕ) (s : LoaderState n), (drawMany perm m s).isSome := by
  intro m
  induction m with
  | zero => intro s; rfl
  | succ m ih =>
    intro s
    obtain ⟨e, rest⟩ := s
    have hdraw : ∃ x s', draw perm ⟨e, rest⟩ = some (x, s') := by
      cases rest with
      | nil =>
        cases hp : perm (e + 1) with
        | nil => exact absurd hp (hperm (e + 1))
        | cons y ys => exact ⟨y, ⟨e + 1, ys⟩, by simp [draw, hp]⟩
      | cons x xs => exact ⟨x, ⟨e, xs⟩, rfl⟩
    obtain ⟨x, s', hs'⟩ := hdraw
    have := ih s'
    rw [drawMany, hs', Option.some_bind]
    cases h2 : drawMany perm m s' with
    | none => rw [h2] at this; cases this
    | some p =>
      obtain ⟨l, s''⟩ := p
      rfl

/-- C5: as long as the dataset is non-empty and each shuffle is a
permutation of the whole index set, the batch source never raises for any
number of draws; drawing `2 * n` batches of size 1 from the fresh source
succeeds, consumes exactly the first two shuffled epochs, and visits
every sample at least twice. -/
theorem batchSource_epoch_wraparound {n : ℕ} (perm : ℕ → List (Fin n))
    (hn : 0 < n) (hperm : ∀ e, (perm e).Perm (List.finRange n)) :
    (∀ (m : ℕ) (s : LoaderState n), (drawMany perm m s).isSome) ∧
    drawMany perm (2 * n) ⟨0, perm 0⟩ = some (perm 0 ++ perm 1, ⟨1, []⟩) ∧
    (∀ v : Fin n, 2 ≤ (perm 0 ++ perm 1).count v) := by
  have hlen : ∀ e, (perm e).length = n := fun e =>
    ((hperm e).length_eq).trans (List.length_finRange n)
  have hne : ∀ e, perm e ≠ [] := by
    intro e h
    have := hlen e
    rw [h] at this
    simp at this
    omega
  refine ⟨drawMany_isSome perm hne, ?_, ?_⟩
  · have h2n : 2 * n = (perm 0).length + n := by rw [hlen 0]; ring
    rw [h2n, drawMany_prefix perm (perm 0) 0 n]
    cases hp : perm 1 with
    | nil => exact absurd hp (hne 1)
    | cons y ys =>
      have hy : n = ys.length + 1 := by
        have := hlen 1
        rw [hp] at this
        simp at this
        omega
      have hfuel : drawMany perm n (⟨0, []⟩ : LoaderState n)
          = drawMany perm (ys.length + 1) ⟨0, []⟩ :=
        congrArg (fun m => drawMany perm m ⟨0, []⟩) hy
      have hstep : drawMany perm (ys.length + 1) (⟨0, []⟩ : LoaderState n)
          = some (y :: ys, ⟨1, []⟩) := by
        simp only [drawMany, draw, hp, Option.some_bind, Nat.zero_add,
          drawMany_rest perm ys 1]
      rw [hfuel, hstep]
      simp [hp]
  · intro v
    have c0 : (perm 0).count v = 1 :=
      ((hperm 0).count_eq v).trans
        (List.count_eq_one_of_mem (List.nodup_finRange n) (List.mem_finRange v))
    have c1 : (perm 1).count v = 1 :=
      ((hperm 1).count_eq v).trans
        (List.count_eq_one_of_mem (List.nodup_finRange n) (List.mem_finRange v))
    rw [List.count_append, c0, c1]

/-- Witness for C5: a one-element dataset with the constant shuffle. -/
theorem batchSource_epoch_wraparound_witness :
    (∀ (m : ℕ) (s : LoaderState 1),
      (drawMany (fun _ => ([0] : List (Fin 1))) m s).isSome) ∧
    drawMany (fun _ => ([0] : List (Fin 1))) (2 * 1) ⟨0, [0]⟩
      = some ([0] ++ [0], ⟨1, []⟩) ∧
    (∀ v : Fin 1, 2 ≤ (([0] : List (Fin 1)) ++ [0]).count v) :=
  batchSource_epoch_wraparound (fun _ => ([0] : List (Fin 1))) (by decide)
    (by
      intro e
      show ([0] : List (Fin 1)).Perm (List.finRange 1)
      decide)

/-! ## Training-loop state machine (run-nerf.py lines 237-239, 288-292, 315-330)

Each iteration emits, in program order: `model.train()`/`estimator.train()`
(lines 238-239), the weight update (`loss.backward(); optimizer.step()`,
lines 289-290), and, when `compute_val` holds, `model.eval()` /
`estimator.eval()` followed by the validation pass (lines 316-330).  After
`range(n_iters)` is exhausted the run is done. -/

inductive Ev
  | modeTrain
  | modeEval
  | update (k : ℕ)
  | validate (k : ℕ)
  | done
deriving DecidableEq

/-- `compute_val = k % args.val_rate == 0 and k > 0 and not args.no_val`
(run-nerf.py line 315). -/
def computeVal (valRate : ℕ) (noVal : Bool) (k : ℕ) : Bool :=
  (k % valRate == 0) && (decide (0 < k)) && (!noVal)

/-- Events of one loop iteration, in program order. -/
def iterEvents (valRate : ℕ) (noVal : Bool) (k : ℕ) : List Ev :=
  [Ev.modeTrain, Ev.update k] ++
    (if computeVal valRate noVal k then [Ev.modeEval, Ev.validate k] else [])

/-- Event trace of `train`: iterations `0 .. nIters-1`, then termination. -/
def trainTrace (nIters valRate : ℕ) (noVal : Bool) : List Ev :=
  ((List.range nIters).map (iterEvents valRate noVal)).flatten ++ [Ev.done]

/-- Mode-discipline checker: `m` is the current train/eval mode (`true` is
training mode); a weight update is legal only in training mode and a
validation pass only in evaluation mode. -/
def modeOk : Bool → List Ev → Bool
  | _, [] => true
  | _, Ev.modeTrain :: es => modeOk true es
  | _, Ev.modeEval :: es => modeOk false es
  | m, Ev.update _ :: es => m && modeOk m es
  | m, Ev.validate _ :: es => !m && modeOk m es
  | m, Ev.done :: es => modeOk m es

lemma modeOk_iterEvents (valRate : ℕ) (noVal : Bool) (k : ℕ) (m : Bool)
    (rest : List Ev) :
    modeOk m (iterEvents valRate noVal k ++ rest)
      = modeOk (!(computeVal valRate noVal k)) rest := by
  unfold iterEvents
  by_cases h : computeVal valRate noVal k
  · simp only [h, if_pos rfl]
    simp [modeOk]
  · simp only [h]
    simp [modeOk]

lemma modeOk_trace_aux (valRate : ℕ) (noVal : Bool) :
    ∀ (l : List ℕ) (m : Bool),
      modeOk m ((l.map (iterEvents valRate noVal)).flatten ++ [Ev.done]) = true := by
  intro l
  induction l with
  | nil => intro m; rfl
  | cons k rest ih =>
    intro m
    rw [List.map_cons, List.flatten_cons, List.append_assoc, modeOk_iterEvents]
    exact ih _

lemma validate_mem_iterEvents (valRate : ℕ) (noVal : Bool) (k k' : ℕ) :
    Ev.validate k ∈ iterEvents valRate noVal k'
      ↔ (k = k' ∧ computeVal valRate noVal k' = true) := by
  unfold iterEvents
  by_cases h : computeVal valRate noVal k'
  · simp [h]
  · simp [h]

lemma update_mem_iterEvents (valRate : ℕ) (noVal : Bool) (k k' : ℕ) :
    Ev.update k ∈ iterEvents valRate noVal k' ↔ k = k' := by
  unfold iterEvents
  by_cases h : computeVal valRate noVal k'
  · simp [h]
  · simp [h]

/-- C8: in the training-loop trace, a validation pass occurs at iteration
`k` iff `k` is a positive multiple of the validation period and
validation is not disabled (and `k` is reached before the maximum); a
weight update occurs exactly at the iterations `k < nIters`, so the loop
is done exactly when the counter reaches the configured maximum (the
final event of the trace is the termination event); and the mode
discipline holds throughout: every update happens in training mode and
every validation pass in evaluation mode. -/
theorem trainLoop_state_machine (nIters valRate : ℕ) (noVal : Bool)
    (_hvr : 0 < valRate) :
    (∀ k : ℕ, Ev.validate k ∈ trainTrace nIters valRate noVal
      ↔ (k < nIters ∧ k % valRate = 0 ∧ 0 < k ∧ noVal = false)) ∧
    (∀ k : ℕ, Ev.update k ∈ trainTrace nIters valRate noVal ↔ k < nIters) ∧
    (trainTrace nIters valRate noVal).getLast? = some Ev.done ∧
    modeOk true (trainTrace nIters valRate noVal) = true := by
  refine ⟨?_, ?_, ?_, ?_⟩
  · intro k
    unfold trainTrace
    rw [List.mem_append]
    constructor
    · intro h
      rcases h with h | h
      · rw [List.mem_flatten] at h
        obtain ⟨l, hl, hkl⟩ := h
        rw [List.mem_map] at hl
        obtain ⟨k', hk', rfl⟩ := hl
        rw [List.mem_range] at hk'
        obtain ⟨rfl, hcv⟩ := (validate_mem_iterEvents valRate noVal k k').1 hkl
        simp only [computeVal, Bool.and_eq_true, beq_iff_eq, decide_eq_true_eq,
          Bool.not_eq_true'] at hcv
        exact ⟨hk', hcv.1.1, hcv.1.2, hcv.2⟩
      · simp at h
    · intro ⟨hk, hmod, hpos, hnv⟩
      left
      rw [List.mem_flatten]
      refine ⟨iterEvents valRate noVal k, ?_, ?_⟩
      · rw [List.mem_map]
        exact ⟨k, List.mem_range.2 hk, rfl⟩
      · rw [validate_mem_iterEvents]
        refine ⟨rfl, ?_⟩
        simp only [computeVal, Bool.and_eq_true, beq_iff_eq, decide_eq_true_eq,
          Bool.not_eq_true']
        exact ⟨⟨hmod, hpos⟩, hnv⟩
  · intro k
    unfold trainTrace
    rw [List.mem_append]
    constructor
    · intro h
      rcases h with h | h
      · rw [List.mem_flatten] at h
        obtain ⟨l, hl, hkl⟩ := h
        rw [List.mem_map] at hl
        obtain ⟨k', hk', rfl⟩ := hl
        rw [List.mem_range] at hk'
        rw [update_mem_iterEvents] at hkl
        exact hkl ▸ hk'
      · simp at h
    · intro hk
      left
      rw [List.mem_flatten]
      refine ⟨iterEvents valRate noVal k, ?_, ?_⟩
      · rw [List.mem_map]
        exact ⟨k, List.mem_range.2 hk, rfl⟩
      · rw [update_mem_iterEvents]
  · exact List.getLast?_concat _
  · exact modeOk_trace_aux valRate noVal (List.range nIters) true

/-- Witness for C8 at `nIters = 3`, `valRate = 2`, validation enabled. -/
theorem trainLoop_state_machine_witness :
    Ev.validate 2 ∈ trainTrace 3 2 false ∧
    (Ev.validate 1 ∈ trainTrace 3 2 false → False) ∧
    Ev.update 2 ∈ trainTrace 3 2 false ∧
    (trainTrace 3 2 false).getLast? = some Ev.done ∧
    modeOk true (trainTrace 3 2 false) = true := by
  have h := trainLoop_state_machine 3 2 false (by norm_num)
  refine ⟨(h.1 2).mpr (by norm_num), ?_, (h.2.1 2).mpr (by norm_num),
    h.2.2.1, h.2.2.2⟩
  intro hmem
  have := (h.1 1).mp hmem
  omega

/-! ## Scalar-metric emission and the `alpha` local (run-nerf.py 272-312)

The Python local `alpha` is assigned only inside
`if args.ao is not None:` and `if k < Ts:` (lines 272-286); the
scalar-metric emission of line 308 reads it whenever
`not args.debug and k % args.val_rate != 0` (line 307).  Reading an
unassigned local raises `NameError`; the simulation result `false` marks
that error, `true` a run of all iterations without it. -/

/-- Simulation of iterations `k, k+1, ..., k+fuel-1`, threading whether
`alpha` is currently bound. -/
def logEmitOk (aoSome : Bool) (Ts valRate : ℕ) (debug : Bool) :
    ℕ → ℕ → Bool → Bool
  | 0, _, _ => true
  | fuel + 1, k, bound =>
    (fun bound' =>
      if !debug && !(k % valRate == 0)
      then bound' && logEmitOk aoSome Ts valRate debug fuel (k + 1) bound'
      else logEmitOk aoSome Ts valRate debug fuel (k + 1) bound')
    (bound || (aoSome && decide (k < Ts)))

/-- Whether `train` completes `nIters` iterations without a `NameError`
in the non-validation scalar-metric emission. -/
def trainLogOk (aoSome : Bool) (Ts valRate nIters : ℕ) (debug : Bool) : Bool :=
  logEmitOk aoSome Ts valRate debug nIters 0 false

lemma logEmitOk_bound_true (aoSome : Bool) (Ts valRate : ℕ) (debug : Bool) :
    ∀ (fuel k : ℕ), logEmitOk aoSome Ts valRate debug fuel k true = true := by
  intro fuel
  induction fuel with
  | zero => intro k; rfl
  | succ fuel ih =>
    intro k
    rw [logEmitOk]
    simp only [Bool.true_or, Bool.true_and]
    by_cases h : (!debug && !(k % valRate == 0)) = true
    · rw [if_pos h]
      exact ih (k + 1)
    · rw [if_neg h]
      exact ih (k + 1)

/-- C10: with logging enabled (`debug = false`), at least two iterations
and a validation period of at least 2, the training loop's scalar-metric
emissions all succeed iff the frequency regularizer is configured and its
active window is non-empty; otherwise the first non-validation emission
(at `k = 1`) reads the never-assigned `alpha` and fails. -/
theorem alpha_emission_precondition (aoSome : Bool) (Ts valRate nIters : ℕ)
    (hvr : 2 ≤ valRate) (hn : 2 ≤ nIters) :
    trainLogOk aoSome Ts valRate nIters false = true
      ↔ (aoSome = true ∧ 0 < Ts) := by
  constructor
  · intro hok
    by_contra hneg
    have hassign : ∀ k : ℕ, (aoSome && decide (k < Ts)) = false := by
      intro k
      by_cases ha : aoSome = true
      · have hTs : Ts = 0 := by
          by_contra hT
          exact hneg ⟨ha, Nat.pos_of_ne_zero hT⟩
        subst hTs
        simp
      · have ha' : aoSome = false := by
          cases aoSome
          · rfl
          · exact absurd rfl ha
        simp [ha']
    obtain ⟨m, rfl⟩ : ∃ m, nIters = m + 2 := ⟨nIters - 2, by omega⟩
    rw [trainLogOk, logEmitOk] at hok
    simp only [hassign 0, Bool.or_false, Nat.zero_mod, beq_self_eq_true,
      Bool.not_true, Bool.and_false, if_neg (by simp : ¬ (false = true))] at hok
    rw [logEmitOk] at hok
    simp only [hassign 1, Bool.or_false] at hok
    have h1 : 1 % valRate = 1 := Nat.mod_eq_of_lt (by omega)
    rw [h1] at hok
    simp at hok
  · intro ⟨ha, hTs⟩
    subst ha
    obtain ⟨m, rfl⟩ : ∃ m, nIters = m + 1 := ⟨nIters - 1, by omega⟩
    rw [trainLogOk, logEmitOk]
    have h0 : (true && decide (0 < Ts)) = true := by simp [hTs]
    simp only [h0, Bool.false_or]
    by_cases h : (!false && !(0 % valRate == 0)) = true
    · rw [if_pos h]
      simp only [Bool.true_and]
      exact logEmitOk_bound_true true Ts valRate false m 1
    · rw [if_neg h]
      exact logEmitOk_bound_true true Ts valRate false m 1

/-- Witness for C10 at `Ts = 1`, `valRate = 2`, `nIters = 2`. -/
theorem alpha_emission_precondition_witness :
    trainLogOk true 1 2 2 false = true :=
  (alpha_emission_precondition true 1 2 2 (by norm_num) (by norm_num)).2
    ⟨rfl, by norm_num⟩

end DepthNerf
